import Mathlib

/-!
Verification of the Morse Engine (src/shared/morse-lib.js) and of the
/api/send-telegram route handler (src/server/index.js).

JavaScript strings are modelled as lists of characters; the JavaScript
values that may reach the engine's functions (null, undefined, strings,
numbers, booleans, other objects) are modelled by `JsValue`.  Every
function below is a total Lean function, which witnesses the source's
no-throw policy: the JavaScript code has no `throw` and no partial
operation on these paths, so an exception is impossible and totality of
the embedding is the faithful rendering of "never raises".
-/

/-- A JavaScript value as it may be passed to the engine's functions. -/
inductive JsValue where
  | null
  | undefined
  | str (s : List Char)
  | num (n : Int)
  | bool (b : Bool)
  | obj
  deriving DecidableEq

/-- The character class removed by JavaScript `String.prototype.trim`:
tab, LF, VT, FF, CR, space, NBSP and the Unicode space separators,
line/paragraph separators and the BOM. -/
def isJsWs (c : Char) : Bool :=
  [9, 10, 11, 12, 13, 32, 160, 5760, 8192, 8193, 8194, 8195, 8196, 8197,
   8198, 8199, 8200, 8201, 8202, 8232, 8233, 8239, 8287, 12288, 65279].contains c.toNat

/-- JavaScript `trim`: drop leading and trailing whitespace. -/
def jsTrim (l : List Char) : List Char :=
  ((l.dropWhile isJsWs).reverse.dropWhile isJsWs).reverse

/-- Character-wise rendering of JavaScript `toUpperCase` (exact on the
ASCII range, which covers every key of the ITU table). -/
def jsToUpper (c : Char) : Char :=
  if 'a' ≤ c ∧ c ≤ 'z' then Char.ofNat (c.toNat - 32) else c

/-- Helper building one entry of the character table. -/
def mkE (c : Char) (s : String) : Char × List Char := (c, s.toList)

/-- `TEXT_TO_MORSE_MAP` from morse-lib.js, as the ordered list of its
entries (a JavaScript object literal is built in source order). -/
def TEXT_TO_MORSE_ENTRIES : List (Char × List Char) := [
  mkE 'A' ".-", mkE 'B' "-...", mkE 'C' "-.-.", mkE 'D' "-..", mkE 'E' ".",
  mkE 'F' "..-.", mkE 'G' "--.", mkE 'H' "....", mkE 'I' "..", mkE 'J' ".---",
  mkE 'K' "-.-", mkE 'L' ".-..", mkE 'M' "--", mkE 'N' "-.", mkE 'O' "---",
  mkE 'P' ".--.", mkE 'Q' "--.-", mkE 'R' ".-.", mkE 'S' "...", mkE 'T' "-",
  mkE 'U' "..-", mkE 'V' "...-", mkE 'W' ".--", mkE 'X' "-..-", mkE 'Y' "-.--",
  mkE 'Z' "--..",
  mkE '0' "-----", mkE '1' ".----", mkE '2' "..---", mkE '3' "...--", mkE '4' "....-",
  mkE '5' ".....", mkE '6' "-....", mkE '7' "--...", mkE '8' "---..", mkE '9' "----.",
  mkE '.' ".-.-.-", mkE ',' "--..--", mkE '?' "..--..", mkE (Char.ofNat 39) ".----.",
  mkE '!' "-.-.--", mkE '/' "-..-.", mkE '(' "-.--.", mkE ')' "-.--.-",
  mkE '&' ".-...", mkE ':' "---...", mkE ';' "-.-.-.", mkE '=' "-...-",
  mkE '+' ".-.-.", mkE '-' "-....-", mkE '_' "..--.-", mkE (Char.ofNat 34) ".-..-.",
  mkE '$' "...-..-", mkE '@' ".--.-.",
  mkE ' ' "/"]

/-- Forward lookup `TEXT_TO_MORSE_MAP[char]` (first matching key; keys
are distinct, so this matches JavaScript object lookup). -/
def lookupFwd (c : Char) : Option (List Char) :=
  (TEXT_TO_MORSE_ENTRIES.find? (fun p => p.1 == c)).map (fun p => p.2)

/-- `MORSE_TO_TEXT_MAP`: the forward entries with key and value swapped,
in build order. -/
def MORSE_TO_TEXT_ENTRIES : List (List Char × Char) :=
  TEXT_TO_MORSE_ENTRIES.map (fun p => (p.2, p.1))

/-- Lookup among the reverse map's own entries.  The reduce in the
source assigns entries in order, so a later assignment would win;
looking the reversed list up from the front models that (the codes are
in fact all distinct, so no overwrite happens). -/
def lookupRev (m : List Char) : Option Char :=
  (MORSE_TO_TEXT_ENTRIES.reverse.find? (fun p => p.1 == m)).map (fun p => p.2)

/-- The reduce in the source builds the reverse map on a plain object
literal, which inherits from `Object.prototype`; a property read on it
can therefore also find one of these twelve inherited members (every
one a function, except the `__proto__` accessor, which yields the
prototype object itself — all of them truthy). -/
def OBJ_PROTO_NAMES : List (List Char) :=
  ["constructor", "hasOwnProperty", "isPrototypeOf", "propertyIsEnumerable",
   "toLocaleString", "toString", "valueOf", "__defineGetter__",
   "__defineSetter__", "__lookupGetter__", "__lookupSetter__",
   "__proto__"].map (fun s => s.toList)

/-- Result of the property read `MORSE_TO_TEXT_MAP[morseChar]`: an own
entry's character, an inherited `Object.prototype` member, or
undefined. -/
inductive RevValue where
  | ownChar (c : Char)
  | protoMember (name : List Char)
  | undef

/-- The property read `MORSE_TO_TEXT_MAP[morseChar]`: own entries
shadow the prototype; otherwise the chain finds an inherited
`Object.prototype` member; otherwise the read is undefined.  (No such
shadowing can occur in fact: every own key is a dot/dash/slash string.
`textToMorse`'s forward reads index with single characters, which no
inherited name is, so `lookupFwd` needs no prototype case.) -/
def readRevMap (m : List Char) : RevValue :=
  match lookupRev m with
  | some c => RevValue.ownChar c
  | none =>
    if OBJ_PROTO_NAMES.contains m then RevValue.protoMember m else RevValue.undef

/-- How `join('')` renders an inherited member that was pushed: the
`__proto__` accessor yields `Object.prototype`, which stringifies via
`Object.prototype.toString`; `constructor` is the function named
`Object`; the other members are native functions stringified under
their own names. -/
def stringifyProtoMember (name : List Char) : List Char :=
  if name = "__proto__".toList then "[object Object]".toList
  else if name = "constructor".toList then
    "function Object() \x7b [native code] \x7d".toList
  else
    "function ".toList ++ name ++ "() \x7b [native code] \x7d".toList

/-- The loop body of `textToMorse`: collect the codes of the known
characters, skipping an unknown character; the `if (morse)` truthiness
test in the source also skips a (non-existent) empty code. -/
def collectMorse : List Char → List (List Char)
  | [] => []
  | c :: rest =>
    match lookupFwd c with
    | some m => if m = [] then collectMorse rest else m :: collectMorse rest
    | none => collectMorse rest

/-- `morseChars.join(' ')`. -/
def joinSp : List (List Char) → List Char
  | [] => []
  | [t] => t
  | t :: ts => t ++ ' ' :: joinSp ts

/-- `textToMorse` from morse-lib.js. -/
def textToMorse : JsValue → List Char
  | JsValue.str s => joinSp (collectMorse (s.map jsToUpper))
  | _ => []

/-- JavaScript `morse.split(' ')`: split on every single space, keeping
empty fragments (`"".split(' ')` is `[""]`). -/
def splitSp : List Char → List (List Char)
  | [] => [[]]
  | c :: rest =>
    if c = ' ' then [] :: splitSp rest
    else
      match splitSp rest with
      | [] => [[c]]
      | t :: ts => (c :: t) :: ts

/-- The error marker pushed by `morseToText` for an unknown token:
U+FFFD (one character). -/
def errMarker : Char := Char.ofNat 65533

/-- The loop body of `morseToText`: skip empty tokens; an own entry and
an inherited member are both truthy under the `if (char)` test and get
pushed (the final `join('')` stringifies a pushed inherited member,
modelled here by appending its rendering); an undefined read is falsy
and pushes the error marker. -/
def decodeTokens : List (List Char) → List Char
  | [] => []
  | t :: ts =>
    if t = [] then decodeTokens ts
    else
      match readRevMap t with
      | RevValue.ownChar c => c :: decodeTokens ts
      | RevValue.protoMember name => stringifyProtoMember name ++ decodeTokens ts
      | RevValue.undef => errMarker :: decodeTokens ts

/-- `morseToText` from morse-lib.js. -/
def morseToText : JsValue → List Char
  | JsValue.str s => if jsTrim s = [] then [] else decodeTokens (splitSp s)
  | _ => []

/-- One symbol's tone entry in `morseToTiming`: 100 for a dot, 300 for a
dash, nothing otherwise. -/
def symEntry (c : Char) : List Nat :=
  if c = '.' then [100] else if c = '-' then [300] else []

/-- The inner loop of `morseToTiming` over one character token: each
symbol's tone entry, followed by the 100ms inter-element gap whenever
the symbol is not the last one of the token. -/
def charTiming : List Char → List Nat
  | [] => []
  | c :: rest =>
    symEntry c ++ (if rest = [] then [] else 100 :: charTiming rest)

/-- The entries one token appends in `morseToTiming`, given the list of
tokens that follow it (`ts = []` means the token is last, i.e. the
source's `i < morseChars.length - 1` is false). -/
def tokenContrib (t : List Char) (ts : List (List Char)) : List Nat :=
  if t = [] then []
  else if t = ['/'] then (if ts = [] then [] else [0, 700])
  else
    charTiming t ++
      (match ts with
       | [] => []
       | next :: _ => if next = ['/'] ∨ next = [] then [] else [300])

/-- The token loop of `morseToTiming`. -/
def timingTokens : List (List Char) → List Nat
  | [] => []
  | t :: ts => tokenContrib t ts ++ timingTokens ts

/-- `morseToTiming` from morse-lib.js. -/
def morseToTiming : JsValue → List Nat
  | JsValue.str s => if jsTrim s = [] then [] else timingTokens (splitSp s)
  | _ => []

/-- Outcome of the /api/send-telegram handler, up to the decision point
the claims are about: either a client-error response, or the decoded
text is forwarded to `invokeOperatorAI` (the response-generation
collaborator) and the request is answered 200. -/
inductive ApiResult where
  | clientError (status : Nat) (message : String)
  | forward (decoded : List Char)
  deriving DecidableEq

/-- JavaScript falsiness of a value, as tested by `!morse_sequence`. -/
def jsFalsy : JsValue → Bool
  | JsValue.null => true
  | JsValue.undefined => true
  | JsValue.str s => s.isEmpty
  | JsValue.num n => n == 0
  | JsValue.bool b => !b
  | JsValue.obj => false

/-- The three-character needle of the `decodedText.includes(...)` check
in src/server/index.js line 68.  The source file's bytes there are
C3 AF C2 BF C2 BD, i.e. the characters U+00EF U+00BF U+00BD — the UTF-8
bytes of U+FFFD read back as Latin-1 — not the single character U+FFFD
that `morseToText` pushes. -/
def mojibakeNeedle : List Char := [Char.ofNat 239, Char.ofNat 191, Char.ofNat 189]

/-- List-of-characters version of a starts-with test. -/
def startsWithL : List Char → List Char → Bool
  | [], _ => true
  | _ :: _, [] => false
  | a :: as, b :: bs => a == b && startsWithL as bs

/-- JavaScript `hay.includes(needle)`: contiguous-substring search. -/
def containsSub : List Char → List Char → Bool
  | [], needle => needle.isEmpty
  | c :: rest, needle => startsWithL needle (c :: rest) || containsSub rest needle

/-- The /api/send-telegram handler from src/server/index.js for a
request whose JSON body parsed (the `!req.body` guard is upstream):
the argument is the body's `morse_sequence` field, `none` when absent
(destructuring then yields `undefined`). -/
def handleSendTelegram (morse_sequence : Option JsValue) : ApiResult :=
  let v := morse_sequence.getD JsValue.undefined
  if jsFalsy v then
    ApiResult.clientError 400 "INVALID TRANSMISSION STOP MORSE SEQUENCE REQUIRED STOP"
  else
    match v with
    | JsValue.str s =>
      if s.length > 500 then
        ApiResult.clientError 400 "TRANSMISSION TOO LONG STOP MAX 500 CHARACTERS STOP"
      else
        let decoded := morseToText (JsValue.str s)
        if containsSub decoded mojibakeNeedle then
          ApiResult.clientError 400 "INVALID MORSE SEQUENCE STOP CONTAINS UNKNOWN PATTERNS STOP"
        else
          ApiResult.forward decoded
    | _ => ApiResult.clientError 400 "INVALID TRANSMISSION STOP MORSE SEQUENCE MUST BE TEXT STOP"

/-- Facts about the table, checked entry by entry: every code is
non-empty, made only of dot, dash and slash characters, none of which is
whitespace, and reverse lookup of the code returns the entry's key. -/
theorem entries_spec : ∀ p ∈ TEXT_TO_MORSE_ENTRIES,
    p.2 ≠ [] ∧ (∀ x ∈ p.2, x = '.' ∨ x = '-' ∨ x = '/') ∧
    lookupRev p.2 = some p.1 ∧ p.1 ≠ errMarker := by decide

/-- A successful forward lookup exhibits an entry of the table. -/
theorem lookupFwd_mem {c : Char} {m : List Char} (h : lookupFwd c = some m) :
    (c, m) ∈ TEXT_TO_MORSE_ENTRIES := by
  unfold lookupFwd at h
  rcases Option.map_eq_some'.mp h with ⟨p, hfind, hval⟩
  have hmem := List.mem_of_find?_eq_some hfind
  have hkey := List.find?_some hfind
  have hk : p.1 = c := by simpa using hkey
  have : p = (c, m) := by
    cases p
    simp_all
  simpa [this] using hmem

/-- A successful reverse lookup exhibits a swapped entry of the table. -/
theorem lookupRev_mem {m : List Char} {c : Char} (h : lookupRev m = some c) :
    (m, c) ∈ MORSE_TO_TEXT_ENTRIES := by
  unfold lookupRev at h
  rcases Option.map_eq_some'.mp h with ⟨p, hfind, hval⟩
  have hmem := List.mem_of_find?_eq_some hfind
  have hkey := List.find?_some hfind
  have hk : p.1 = m := by simpa using hkey
  have : p = (m, c) := by
    cases p
    simp_all
  rw [this] at hmem
  exact List.mem_reverse.mp hmem

theorem lookupFwd_value_ne_nil {c : Char} {m : List Char} (h : lookupFwd c = some m) :
    m ≠ [] :=
  (entries_spec _ (lookupFwd_mem h)).1

theorem lookupFwd_value_chars {c : Char} {m : List Char} (h : lookupFwd c = some m) :
    ∀ x ∈ m, x = '.' ∨ x = '-' ∨ x = '/' :=
  (entries_spec _ (lookupFwd_mem h)).2.1

/-- Reverse lookup inverts forward lookup on every key. -/
theorem lookupRev_lookupFwd {c : Char} {m : List Char} (h : lookupFwd c = some m) :
    lookupRev m = some c :=
  (entries_spec _ (lookupFwd_mem h)).2.2.1

/-- An own entry shadows the prototype chain in the property read. -/
theorem readRevMap_own {m : List Char} {c : Char} (h : lookupRev m = some c) :
    readRevMap m = RevValue.ownChar c := by
  simp [readRevMap, h]

/-- A failed own lookup on a token that is no inherited name reads as
undefined. -/
theorem readRevMap_undef {m : List Char} (h : lookupRev m = none)
    (hp : OBJ_PROTO_NAMES.contains m = false) : readRevMap m = RevValue.undef := by
  simp [readRevMap, h]
  simpa using hp

/-- A decoded character is never the error marker. -/
theorem lookupRev_ne_errMarker {m : List Char} {c : Char} (h : lookupRev m = some c) :
    c ≠ errMarker := by
  have hmem := lookupRev_mem h
  have : ∀ q ∈ MORSE_TO_TEXT_ENTRIES, q.2 ≠ errMarker := by decide
  exact this _ hmem

/-- The code a valid character encodes to. -/
def codeOf (c : Char) : List Char := (lookupFwd c).getD []

/-- On a string of table characters, `textToMorse`'s loop collects
exactly the characters' codes, in order. -/
theorem collectMorse_valid : ∀ u : List Char, (∀ c ∈ u, (lookupFwd c).isSome) →
    collectMorse u = u.map codeOf
  | [], _ => rfl
  | c :: u', h => by
    obtain ⟨m, hm⟩ := Option.isSome_iff_exists.mp (h c (List.mem_cons_self c u'))
    have hne := lookupFwd_value_ne_nil hm
    have ih := collectMorse_valid u' (fun x hx => h x (List.mem_cons_of_mem _ hx))
    simp [collectMorse, hm, hne, codeOf, ih]

/-- Decoding the list of codes of valid characters returns the
characters. -/
theorem decodeTokens_map : ∀ u : List Char, (∀ c ∈ u, (lookupFwd c).isSome) →
    decodeTokens (u.map codeOf) = u
  | [], _ => rfl
  | c :: u', h => by
    obtain ⟨m, hm⟩ := Option.isSome_iff_exists.mp (h c (List.mem_cons_self c u'))
    have hne := lookupFwd_value_ne_nil hm
    have hread := readRevMap_own (lookupRev_lookupFwd hm)
    have hcode : codeOf c = m := by simp [codeOf, hm]
    have ih := decodeTokens_map u' (fun x hx => h x (List.mem_cons_of_mem _ hx))
    simp [decodeTokens, hcode, hne, hread, ih]

/-- Splitting a space-free string on spaces yields the one token. -/
theorem splitSp_no_space : ∀ l : List Char, ' ' ∉ l → splitSp l = [l]
  | [], _ => rfl
  | c :: rest, h => by
    have hc : ¬ c = ' ' := fun hc => h (hc ▸ List.mem_cons_self c rest)
    have ih := splitSp_no_space rest (fun hm => h (List.mem_cons_of_mem _ hm))
    simp [splitSp, hc, ih]

/-- Splitting past a space-free fragment peels it off as one token. -/
theorem splitSp_append : ∀ (a r : List Char), ' ' ∉ a →
    splitSp (a ++ ' ' :: r) = a :: splitSp r
  | [], r, _ => by simp [splitSp]
  | c :: a', r, h => by
    have hc : ¬ c = ' ' := fun hc => h (hc ▸ List.mem_cons_self c a')
    have ih := splitSp_append a' r (fun hm => h (List.mem_cons_of_mem _ hm))
    simp [splitSp, hc, ih]

/-- Splitting undoes joining for a non-empty list of space-free codes. -/
theorem splitSp_joinSp : ∀ codes : List (List Char), codes ≠ [] →
    (∀ m ∈ codes, ' ' ∉ m) → splitSp (joinSp codes) = codes
  | [], hne, _ => absurd rfl hne
  | [m], _, h => by
    simp [joinSp, splitSp_no_space m (h m (List.mem_cons_self m []))]
  | m :: m' :: rest, _, h => by
    have ih := splitSp_joinSp (m' :: rest) (by simp)
      (fun x hx => h x (List.mem_cons_of_mem _ hx))
    have hj : joinSp (m :: m' :: rest) = m ++ ' ' :: joinSp (m' :: rest) := rfl
    rw [hj, splitSp_append m _ (h m (List.mem_cons_self m _)), ih]

/-- A string containing a non-whitespace character does not trim to
empty. -/
theorem jsTrim_ne_nil {l : List Char} {c : Char} (hc : c ∈ l) (hw : isJsWs c = false) :
    jsTrim l ≠ [] := by
  intro h
  unfold jsTrim at h
  have h1 : (l.dropWhile isJsWs).reverse.dropWhile isJsWs = [] := by
    have := congrArg List.reverse h
    simpa using this
  have h2 : ∀ x ∈ l.dropWhile isJsWs, isJsWs x := by
    intro x hx
    exact List.dropWhile_eq_nil_iff.mp h1 x (List.mem_reverse.mpr hx)
  have h3 : ∀ x ∈ l, isJsWs x = true := by
    intro x hx
    rw [← List.takeWhile_append_dropWhile (p := isJsWs) (l := l)] at hx
    rcases List.mem_append.mp hx with hx | hx
    · exact List.mem_takeWhile_imp hx
    · exact h2 x hx
  rw [h3 c hc] at hw
  exact absurd hw (by decide)

/-- Membership in the head token survives joining. -/
theorem mem_joinSp_head {x : Char} {m : List Char} (rest : List (List Char)) (hx : x ∈ m) :
    x ∈ joinSp (m :: rest) := by
  cases rest with
  | nil => simpa [joinSp] using hx
  | cons b bs =>
    have hj : joinSp (m :: b :: bs) = m ++ ' ' :: joinSp (b :: bs) := rfl
    rw [hj]
    exact List.mem_append.mpr (Or.inl hx)

/-- Encoding a string of table characters and decoding the result gives
the string back. -/
theorem encode_decode (u : List Char) (hvu : ∀ d ∈ u, (lookupFwd d).isSome) :
    morseToText (JsValue.str (joinSp (collectMorse u))) = u := by
  cases u with
  | nil => decide
  | cons d u' =>
    have hvu' : ∀ x ∈ d :: u', (lookupFwd x).isSome := hvu
    have hcollect : collectMorse (d :: u') = (d :: u').map codeOf :=
      collectMorse_valid _ hvu'
    have hcodes_nospace : ∀ m ∈ (d :: u').map codeOf, ' ' ∉ m := by
      intro m hm
      rcases List.mem_map.mp hm with ⟨x, hx, rfl⟩
      obtain ⟨mm, hmm⟩ := Option.isSome_iff_exists.mp (hvu' x hx)
      have hcode : codeOf x = mm := by simp [codeOf, hmm]
      rw [hcode]
      intro hs
      rcases lookupFwd_value_chars hmm ' ' hs with h1 | h1 | h1 <;>
        exact absurd h1 (by decide)
    obtain ⟨m0, hm0⟩ := Option.isSome_iff_exists.mp (hvu' d (List.mem_cons_self d u'))
    have hm0code : codeOf d = m0 := by simp [codeOf, hm0]
    obtain ⟨x, hx⟩ := List.exists_mem_of_ne_nil m0 (lookupFwd_value_ne_nil hm0)
    have hxw : isJsWs x = false := by
      rcases lookupFwd_value_chars hm0 x hx with h1 | h1 | h1 <;> subst h1 <;> decide
    have hmap : (d :: u').map codeOf = m0 :: u'.map codeOf := by
      simp [hm0code]
    have hxmem : x ∈ joinSp (collectMorse (d :: u')) := by
      rw [hcollect, hmap]
      exact mem_joinSp_head _ hx
    have htrim := jsTrim_ne_nil hxmem hxw
    have hsplit : splitSp (joinSp (collectMorse (d :: u'))) = (d :: u').map codeOf := by
      rw [hcollect]
      exact splitSp_joinSp _ (by simp) hcodes_nospace
    have hdec := decodeTokens_map (d :: u') hvu'
    simp [morseToText, htrim, hsplit]
    simpa using hdec

/-- C1: for every text string whose characters, after uppercasing, are
keys of the ITU table, decoding the encoding returns the uppercased
text: `morseToText(textToMorse(t)) = uppercase(t)`. -/
theorem C1_round_trip (t : List Char)
    (h : ∀ c ∈ t, (lookupFwd (jsToUpper c)).isSome) :
    morseToText (JsValue.str (textToMorse (JsValue.str t))) = t.map jsToUpper := by
  have hvu : ∀ d ∈ t.map jsToUpper, (lookupFwd d).isSome := by
    intro d hd
    rcases List.mem_map.mp hd with ⟨x, hx, rfl⟩
    exact h x hx
  simpa [textToMorse] using encode_decode (t.map jsToUpper) hvu

/-- C1 at a concrete input: "Hello World" round-trips to "HELLO WORLD". -/
theorem C1_round_trip_witness :
    morseToText (JsValue.str (textToMorse (JsValue.str ("Hello World".toList)))) =
      ("Hello World".toList).map jsToUpper :=
  C1_round_trip ("Hello World".toList) (by decide)

/-- C2: the claim says a well-formed request whose decoding contains the
error marker is rejected with HTTP 400; the code's substring check
compares against the three-character mojibake needle, which never occurs
in `morseToText` output, so the decoded text (here three error markers,
from the input of the repository's own test at
src/server/index.test.js:110) is forwarded to the response-generation
collaborator instead. -/
theorem C2_endpoint_code_bug :
    morseToText (JsValue.str ("........ -------- ........".toList)) =
      [errMarker, errMarker, errMarker] ∧
    handleSendTelegram (some (JsValue.str ("........ -------- ........".toList))) =
      ApiResult.forward [errMarker, errMarker, errMarker] := by
  constructor
  · decide
  · decide

/-- C3 fails on the code: the token "ab" is neither the word separator
nor composed of dot/dash symbols, yet it contributes the 100ms
inter-element gap appended positionally after its non-final character. -/
theorem C3_counterexample :
    morseToTiming (JsValue.str ("ab".toList)) = [100] ∧
    morseToTiming (JsValue.str ("ab".toList)) ≠ [] := by decide

/-- `charTiming` on a token with no dot and no dash emits only the
positional inter-element gaps: one 100 per non-final character. -/
theorem charTiming_no_sym : ∀ t : List Char, (∀ c ∈ t, c ≠ '.' ∧ c ≠ '-') →
    charTiming t = List.replicate (t.length - 1) 100
  | [], _ => rfl
  | c :: rest, h => by
    obtain ⟨hd, hdash⟩ := h c (List.mem_cons_self c rest)
    have hsym : symEntry c = [] := by simp [symEntry, hd, hdash]
    cases rest with
    | nil => simp [charTiming, hsym]
    | cons b bs =>
      have ih := charTiming_no_sym (b :: bs) (fun x hx => h x (List.mem_cons_of_mem _ hx))
      have hout : charTiming (c :: b :: bs) = symEntry c ++ 100 :: charTiming (b :: bs) := rfl
      rw [hout, hsym, ih]
      simp [List.replicate_succ]

/-- C3 amended: a single-token input that is neither the word separator
nor contains any dot/dash symbol contributes no tone entries, but it
still contributes one positional 100ms inter-element gap per non-final
character (and, in longer inputs, the usual inter-token gaps). -/
theorem C3_amended (t : List Char) (hsp : ' ' ∉ t)
    (hsym : ∀ c ∈ t, c ≠ '.' ∧ c ≠ '-')
    (hslash : t ≠ ['/']) (htrim : jsTrim t ≠ []) :
    morseToTiming (JsValue.str t) = List.replicate (t.length - 1) 100 := by
  have hne : t ≠ [] := by
    intro h
    subst h
    exact htrim rfl
  have hsplit := splitSp_no_space t hsp
  have hct := charTiming_no_sym t hsym
  simp [morseToTiming, htrim, hsplit, timingTokens, tokenContrib, hne, hslash, hct]

/-- C3 amended, evaluated: the invalid token "ab" yields exactly one
100ms gap entry. -/
theorem C3_amended_witness :
    morseToTiming (JsValue.str ("ab".toList)) =
      List.replicate (("ab".toList).length - 1) 100 :=
  C3_amended ("ab".toList) (by decide) (by decide) (by decide) (by decide)

/-- C4 fails on the code: a sole word-separator token is non-empty after
trimming, yet `morseToTiming` returns the empty sequence for it. -/
theorem C4_counterexample :
    jsTrim ("/".toList) ≠ [] ∧ morseToTiming (JsValue.str ("/".toList)) = [] := by decide

/-- C4 amended: the output sequence is empty if the input is empty after
trimming (the converse direction of the claim's iff fails, e.g. on a
sole word-separator token). -/
theorem C4_amended (s : List Char) (h : jsTrim s = []) :
    morseToTiming (JsValue.str s) = [] := by
  simp [morseToTiming, h]

/-- C4 amended at a concrete input: an all-space string times to the
empty sequence. -/
theorem C4_amended_witness : morseToTiming (JsValue.str ("   ".toList)) = [] :=
  C4_amended ("   ".toList) (by decide)

/-- The entries contributed by a prefix of the token list, each token
seeing the tokens that follow it. -/
def contribsAux : List (List Char) → List (List Char) → List Nat
  | [], _ => []
  | t :: ts, rest => tokenContrib t (ts ++ rest) ++ contribsAux ts rest

/-- The token loop processes a concatenation as the prefix's
contributions followed by the rest's entries. -/
theorem timingTokens_append : ∀ (pre rest : List (List Char)),
    timingTokens (pre ++ rest) = contribsAux pre rest ++ timingTokens rest
  | [], rest => by simp [contribsAux]
  | t :: ts, rest => by
    have ih := timingTokens_append ts rest
    simp [timingTokens, contribsAux, ih]

/-- C5: a word-separator token that is not the last token of the split
sequence contributes exactly the entries 0 then 700 at its position, and
a final word-separator token contributes nothing; in particular
`morseToTiming(".- / -...")` places 0 then 700 between the two character
tokens' timings. -/
theorem C5_word_gap :
    (∀ pre ts : List (List Char),
      timingTokens (pre ++ ['/'] :: ts) =
        contribsAux pre (['/'] :: ts) ++
          ((if ts = [] then [] else [0, 700]) ++ timingTokens ts)) ∧
    morseToTiming (JsValue.str (".- / -...".toList)) =
      [100, 100, 300, 0, 700, 300, 100, 100, 100, 100, 100, 100] := by
  constructor
  · intro pre ts
    rw [timingTokens_append]
    have hsep : timingTokens (['/'] :: ts) =
        (if ts = [] then [] else [0, 700]) ++ timingTokens ts := by
      cases ts <;> simp [timingTokens, tokenContrib]
    rw [hsep]
  · decide

/-- What one non-empty token decodes to: its character, or the marker. -/
def decodeTok (t : List Char) : Char :=
  match lookupRev t with
  | some c => c
  | none => errMarker

/-- The non-empty tokens of a Morse string, in order. -/
def nonEmptyTokens (s : List Char) : List (List Char) :=
  (splitSp s).filter (fun t => !t.isEmpty)

/-- On tokens that are no inherited `Object.prototype` names, the
decode loop maps `decodeTok` over the non-empty tokens. -/
theorem decodeTokens_eq_map : ∀ l : List (List Char),
    (∀ t ∈ l, OBJ_PROTO_NAMES.contains t = false) →
    decodeTokens l = (l.filter (fun t => !t.isEmpty)).map decodeTok
  | [], _ => rfl
  | t :: ts, h => by
    have ih := decodeTokens_eq_map ts (fun x hx => h x (List.mem_cons_of_mem _ hx))
    have hpt := h t (List.mem_cons_self t ts)
    by_cases ht : t = []
    · subst ht
      simp [decodeTokens, ih]
    · cases hl : lookupRev t with
      | none =>
        have hread := readRevMap_undef hl hpt
        simp [decodeTokens, ht, hread, hl, ih, decodeTok]
      | some c =>
        have hread := readRevMap_own hl
        simp [decodeTokens, ht, hread, hl, ih, decodeTok]

/-- Counting markers in the decoded output counts the tokens whose
reverse lookup fails (a successful lookup never yields the marker). -/
theorem count_errMarker_map : ∀ l : List (List Char),
    (l.map decodeTok).count errMarker = l.countP (fun t => (lookupRev t).isNone)
  | [] => rfl
  | t :: ts => by
    have ih := count_errMarker_map ts
    cases hl : lookupRev t with
    | none => simp [decodeTok, hl, List.count_cons, List.countP_cons, ih]
    | some c =>
      have hc := lookupRev_ne_errMarker hl
      simp [decodeTok, hl, List.count_cons, List.countP_cons, ih, hc]

/-- C6 fails on the code as stated, in two ways.  A tab character is a
non-empty token absent from the reverse table, but the whitespace-only
input is caught by the trim guard and decodes to the empty string, with
zero markers instead of one.  And the token "constructor" is likewise
absent from the table's entries, yet the property read finds the
inherited, truthy `Object.prototype.constructor`, so the real code
pushes it instead of a marker and the joined output is its
stringification — again zero markers for an invalid token. -/
theorem C6_counterexample :
    ((nonEmptyTokens [Char.ofNat 9]).countP (fun t => (lookupRev t).isNone) = 1 ∧
      morseToText (JsValue.str [Char.ofNat 9]) = []) ∧
    ((nonEmptyTokens ("constructor".toList)).countP
        (fun t => (lookupRev t).isNone) = 1 ∧
      morseToText (JsValue.str ("constructor".toList)) =
        ("function Object() \x7b [native code] \x7d").toList ∧
      (morseToText (JsValue.str ("constructor".toList))).count errMarker = 0) := by
  decide

/-- C6 amended: for every Morse string that is not whitespace-only and
none of whose non-empty tokens is an inherited `Object.prototype`
property name, `morseToText` returns exactly the per-token decodings of
the non-empty tokens in their original order, and the output contains
exactly one error marker per invalid non-empty token. -/
theorem C6_amended (s : List Char) (htrim : jsTrim s ≠ [])
    (hproto : ∀ t ∈ nonEmptyTokens s, OBJ_PROTO_NAMES.contains t = false) :
    morseToText (JsValue.str s) = (nonEmptyTokens s).map decodeTok ∧
    (morseToText (JsValue.str s)).count errMarker =
      (nonEmptyTokens s).countP (fun t => (lookupRev t).isNone) := by
  have hall : ∀ t ∈ splitSp s, OBJ_PROTO_NAMES.contains t = false := by
    intro t ht
    by_cases hte : t = []
    · subst hte
      decide
    · refine hproto t (List.mem_filter.mpr ⟨ht, ?_⟩)
      simpa using hte
  have h1 : morseToText (JsValue.str s) = (nonEmptyTokens s).map decodeTok := by
    simp [morseToText, htrim, nonEmptyTokens, decodeTokens_eq_map (splitSp s) hall]
  exact ⟨h1, by rw [h1, count_errMarker_map]⟩

/-- C6 amended at the spec's own scenario 6 input. -/
theorem C6_amended_witness :
    morseToText (JsValue.str (".- ........ -...".toList)) =
      (nonEmptyTokens (".- ........ -...".toList)).map decodeTok ∧
    (morseToText (JsValue.str (".- ........ -...".toList))).count errMarker =
      (nonEmptyTokens (".- ........ -...".toList)).countP
        (fun t => (lookupRev t).isNone) :=
  C6_amended (".- ........ -...".toList) (by decide) (by decide)

/-- Dropping the characters `textToMorse` would skip anyway leaves its
collected codes unchanged. -/
theorem collectMorse_filter : ∀ t : List Char,
    collectMorse ((t.filter (fun c => (lookupFwd (jsToUpper c)).isSome)).map jsToUpper) =
      collectMorse (t.map jsToUpper)
  | [] => rfl
  | c :: t' => by
    have ih := collectMorse_filter t'
    cases hl : lookupFwd (jsToUpper c) with
    | none => simp [List.filter_cons, hl, collectMorse, ih]
    | some m => simp [List.filter_cons, hl, collectMorse, ih]

/-- C7: the output of `textToMorse` is exactly the encoding of the
valid characters only, in their original order: pre-dropping every
character that is not an ITU-table key (after uppercasing) does not
change the output, so dropped characters leave no placeholder, marker
or extra separator. -/
theorem C7_unknown_drop (t : List Char) :
    textToMorse (JsValue.str t) =
      textToMorse (JsValue.str
        (t.filter (fun c => (lookupFwd (jsToUpper c)).isSome))) :=
  congrArg joinSp (collectMorse_filter t).symm

/-- Whether a JavaScript value is a string. -/
def isStringVal : JsValue → Bool
  | JsValue.str _ => true
  | _ => false

/-- C8: null, undefined and every non-string value make each of the
three functions return its empty result (and, the embedding being
total, no exception is raised). -/
theorem C8_type_errors (v : JsValue) (h : isStringVal v = false) :
    textToMorse v = [] ∧ morseToText v = [] ∧ morseToTiming v = [] := by
  cases v <;> simp_all [isStringVal, textToMorse, morseToText, morseToTiming]

/-- C8 at the concrete input null. -/
theorem C8_type_errors_witness :
    textToMorse JsValue.null = [] ∧ morseToText JsValue.null = [] ∧
      morseToTiming JsValue.null = [] :=
  C8_type_errors JsValue.null rfl

/-- A symbol's tone entry is 100 or 300. -/
theorem symEntry_mem {x : Nat} {c : Char} (h : x ∈ symEntry c) : x = 100 ∨ x = 300 := by
  unfold symEntry at h
  split at h
  · simp at h
    exact Or.inl h
  · split at h
    · simp at h
      exact Or.inr h
    · simp at h

/-- Entries of a character token's timing are 100 or 300. -/
theorem charTiming_mem : ∀ (t : List Char) (x : Nat), x ∈ charTiming t →
    x = 100 ∨ x = 300
  | [], _, h => by simp [charTiming] at h
  | c :: rest, x, h => by
    have hu : charTiming (c :: rest) =
        symEntry c ++ (if rest = [] then [] else 100 :: charTiming rest) := rfl
    rw [hu] at h
    rcases List.mem_append.mp h with h | h
    · exact symEntry_mem h
    · by_cases hr : rest = []
      · simp [hr] at h
      · simp [hr] at h
        rcases h with h | h
        · exact Or.inl h
        · exact charTiming_mem rest x h

/-- Entries contributed by one token are 0, 100, 300 or 700. -/
theorem tokenContrib_mem (t : List Char) (ts : List (List Char)) (x : Nat)
    (h : x ∈ tokenContrib t ts) : x = 0 ∨ x = 100 ∨ x = 300 ∨ x = 700 := by
  unfold tokenContrib at h
  split at h
  · simp at h
  · split at h
    · split at h
      · simp at h
      · simp at h
        rcases h with h | h
        · exact Or.inl h
        · exact Or.inr (Or.inr (Or.inr h))
    · rcases List.mem_append.mp h with h | h
      · rcases charTiming_mem t x h with h | h
        · exact Or.inr (Or.inl h)
        · exact Or.inr (Or.inr (Or.inl h))
      · cases ts with
        | nil => simp at h
        | cons n ns =>
          by_cases hn : n = ['/'] ∨ n = []
          · simp [hn] at h
          · simp [hn] at h
            exact Or.inr (Or.inr (Or.inl h))

/-- Entries of the token loop are 0, 100, 300 or 700. -/
theorem timingTokens_mem : ∀ (l : List (List Char)) (x : Nat), x ∈ timingTokens l →
    x = 0 ∨ x = 100 ∨ x = 300 ∨ x = 700
  | [], _, h => by simp [timingTokens] at h
  | t :: ts, x, h => by
    rcases List.mem_append.mp (by simpa [timingTokens] using h) with h | h
    · exact tokenContrib_mem t ts x h
    · exact timingTokens_mem ts x h

/-- C9: every entry of `morseToTiming`'s output, on any input, is one of
0, 100, 300 or 700 (the output lives in the natural numbers, so no
negative or non-integer value can appear). -/
theorem C9_timing_values (v : JsValue) (x : Nat) (h : x ∈ morseToTiming v) :
    x = 0 ∨ x = 100 ∨ x = 300 ∨ x = 700 := by
  cases v with
  | str s =>
    by_cases ht : jsTrim s = []
    · simp [morseToTiming, ht] at h
    · exact timingTokens_mem _ x (by simpa [morseToTiming, ht] using h)
  | null => simp [morseToTiming] at h
  | undefined => simp [morseToTiming] at h
  | num n => simp [morseToTiming] at h
  | bool b => simp [morseToTiming] at h
  | obj => simp [morseToTiming] at h

/-- C9 at a concrete input: 100 occurs in the timing of ".-" and is one
of the four constants. -/
theorem C9_timing_values_witness :
    100 ∈ morseToTiming (JsValue.str (".-".toList)) ∧
      ((100 : Nat) = 0 ∨ (100 : Nat) = 100 ∨ (100 : Nat) = 300 ∨ (100 : Nat) = 700) :=
  ⟨by decide, C9_timing_values (JsValue.str (".-".toList)) 100 (by decide)⟩

/-- Removing every error marker from a string leaves `textToMorse`'s
collected codes unchanged, since the marker is not a table key. -/
theorem collectMorse_filter_marker : ∀ s : List Char,
    collectMorse ((s.filter (fun c => !(c == errMarker))).map jsToUpper) =
      collectMorse (s.map jsToUpper)
  | [] => rfl
  | c :: s' => by
    have ih := collectMorse_filter_marker s'
    by_cases hc : c = errMarker
    · subst hc
      have hl : lookupFwd (jsToUpper errMarker) = none := by decide
      simp [List.filter_cons, collectMorse, hl, ih]
    · cases hl : lookupFwd (jsToUpper c) with
      | none => simp [List.filter_cons, hc, collectMorse, hl, ih]
      | some m => simp [List.filter_cons, hc, collectMorse, hl, ih]

/-- C10: the error marker is not a key of the forward table, and for
every Morse string m, re-encoding its decoding equals re-encoding the
decoding with every error marker removed: invalid tokens leave no trace
after a decode/encode round trip. -/
theorem C10_reencode_erases_markers (m : List Char) :
    lookupFwd errMarker = none ∧
    textToMorse (JsValue.str (morseToText (JsValue.str m))) =
      textToMorse (JsValue.str
        ((morseToText (JsValue.str m)).filter (fun c => !(c == errMarker)))) :=
  ⟨by decide, congrArg joinSp (collectMorse_filter_marker (morseToText (JsValue.str m))).symm⟩

